import Mathlib

/-!
Verification of the gg history-rewriting orchestrator and its helpers.

Shallow embedding of:
- `internal/git/status.go` (`StatusCode` classification predicates),
- `cmd/gg/status.go` (the status command's classification dispatch),
- `cmd/gg/requestpull.go` (`cleanupMessage`, `amendedDiffStatus`),
- the `update` command's `targetForUpdate`/`updateToBranch`,
- the divergence planner and rewrite/continuation state machine of the
  `rebase`/`histedit` commands (modelled from the specification where the
  implementation is not part of the excerpted sources).
-/

namespace GG

/-! ## Status codes (`internal/git/status.go`) -/

/-- A two-letter code from the `git status` short format (`StatusCode [2]byte`).
The first component is `code[0]`, the second is `code[1]`. -/
abbrev StatusCode := Char × Char

/-- Source `IsMissing`: the file has been deleted in the work tree. -/
def isMissing (c : StatusCode) : Bool := c.2 == 'D'

/-- Source `IsModified`: modified in either the index or the work tree. -/
def isModified (c : StatusCode) : Bool :=
  (c.1 == 'M' && c.2 == ' ') || (c.1 == ' ' && c.2 == 'M') || (c.1 == 'M' && c.2 == 'M')

/-- Source `IsRemoved`: the file has been deleted in the index. -/
def isRemoved (c : StatusCode) : Bool := c.1 == 'D' && c.2 == ' '

/-- Source `IsRenamed`: the file is the result of a rename. -/
def isRenamed (c : StatusCode) : Bool := c.1 == 'R' && (c.2 == ' ' || c.2 == 'M')

/-- Source `IsOriginalMissing`: detected as a rename in the work tree with neither
side updated in the index. -/
def isOriginalMissing (c : StatusCode) : Bool := c.1 == ' ' && c.2 == 'R'

/-- Source `IsCopied`: the file has been copied from elsewhere. -/
def isCopied (c : StatusCode) : Bool :=
  (c.1 == 'C' && (c.2 == ' ' || c.2 == 'M')) || (c.1 == ' ' && c.2 == 'C')

/-- Source `IsAdded`: the file is new to the index (including copies, but not renames). -/
def isAdded (c : StatusCode) : Bool :=
  (c.1 == 'A' && (c.2 == ' ' || c.2 == 'M')) || (c.1 == ' ' && c.2 == 'A') ||
    isOriginalMissing c || isCopied c

/-- Source `IsIgnored`: the file is being ignored by Git. -/
def isIgnored (c : StatusCode) : Bool := c.1 == '!' && c.2 == '!'

/-- Source `IsUntracked`: the file is not being tracked by Git. -/
def isUntracked (c : StatusCode) : Bool := c.1 == '?' && c.2 == '?'

/-- Source `IsUnmerged`: the file has unresolved merge conflicts. -/
def isUnmerged (c : StatusCode) : Bool :=
  (c.1 == 'D' && c.2 == 'D') || (c.1 == 'A' && c.2 == 'U') ||
    (c.1 == 'U' && c.2 == 'D') || (c.1 == 'U' && c.2 == 'A') ||
    (c.1 == 'D' && c.2 == 'U') || (c.1 == 'A' && c.2 == 'A') ||
    (c.1 == 'U' && c.2 == 'U')

/-- The pairs of the `codes` string from `StatusCode.isValid`:
`"??!!" + " M D A R" + "M MMMD" + "A AMAD" + "D " + "R RMRD" + "C CMCD" + "DDAUUDUADUAAUU"`. -/
def validCodes : List StatusCode :=
  [('?', '?'), ('!', '!'),
   (' ', 'M'), (' ', 'D'), (' ', 'A'), (' ', 'R'),
   ('M', ' '), ('M', 'M'), ('M', 'D'),
   ('A', ' '), ('A', 'M'), ('A', 'D'),
   ('D', ' '),
   ('R', ' '), ('R', 'M'), ('R', 'D'),
   ('C', ' '), ('C', 'M'), ('C', 'D'),
   ('D', 'D'), ('A', 'U'), ('U', 'D'), ('U', 'A'), ('D', 'U'), ('A', 'A'), ('U', 'U')]

/-- Source `StatusCode.isValid`: the two-byte code is one of the pairs of the
`codes` table. -/
def isValid (c : StatusCode) : Bool := decide (c ∈ validCodes)

/-- The classification dispatch of the `status` command (`cmd/gg/status.go`):
the `switch` over the predicates, in source order; `none` is the
`default:` "unrecognized status" branch. -/
def statusClass (c : StatusCode) : Option String :=
  if isModified c then some "M"
  else if isAdded c then some "A"
  else if isRemoved c then some "R"
  else if isCopied c then some "A "
  else if isRenamed c then some "A R"
  else if isMissing c then some "!"
  else if isUntracked c then some "?"
  else if isUnmerged c then some "U"
  else none

/-! ## Commit-message cleanup (`cmd/gg/requestpull.go`, `cleanupMessage`) -/

/-- Go `strings.SplitAfter(s, "\n")`: split after each newline, keeping the
newline at the end of each segment. A string ending in a newline yields a
trailing empty segment; the empty string yields one empty segment. -/
def splitAfterNl : List Char → List (List Char)
  | [] => [[]]
  | c :: rest =>
    match splitAfterNl rest with
    | [] => [[c]]
    | seg :: segs =>
      if c = '\n' then [c] :: seg :: segs else (c :: seg) :: segs

/-- Go `strings.HasPrefix(l, p)` (the pattern `p` is the first argument). -/
def beginsWith : List Char → List Char → Bool
  | [], _ => true
  | _ :: _, [] => false
  | p :: ps, c :: cs => p == c && beginsWith ps cs

/-- Go `unicode.IsSpace` restricted to the code points Go classifies as white
space (Latin-1 white space plus the Unicode `White_Space` property). -/
def goIsSpace (c : Char) : Bool :=
  c == ' ' || c == '\t' || c == '\n' || (0x0b ≤ c.toNat && c.toNat ≤ 0x0d) ||
    c.toNat == 0x85 || c.toNat == 0xa0 || c.toNat == 0x1680 ||
    (0x2000 ≤ c.toNat && c.toNat ≤ 0x200a) ||
    c.toNat == 0x2028 || c.toNat == 0x2029 || c.toNat == 0x202f ||
    c.toNat == 0x205f || c.toNat == 0x3000

/-- Go `strings.TrimRightFunc(l, unicode.IsSpace)`. -/
def trimRightSpace (l : List Char) : List Char :=
  ((l.reverse).dropWhile goIsSpace).reverse

/-- Drop the trailing blank lines (the loop shrinking `lines` from the
right while the last element is empty). -/
def dropTrailingBlanks (ls : List (List Char)) : List (List Char) :=
  ((ls.reverse).dropWhile List.isEmpty).reverse

/-- The line pipeline of `cleanupMessage`: split into lines, drop the lines
beginning with the (non-empty) comment marker, strip trailing white space
from each remaining line, drop trailing blank lines. -/
def cleanupLines (s p : List Char) : List (List Char) :=
  dropTrailingBlanks
    (((splitAfterNl s).filter
        (fun l => !(!p.isEmpty && beginsWith p l))).map trimRightSpace)

/-- Source `cleanupMessage`: the cleaned lines joined back together, writing a
newline after every line. -/
def cleanupMessage (s p : List Char) : List Char :=
  (cleanupLines s p).foldr (fun l acc => l ++ '\n' :: acc) []

/-! ## Branch update targets (`update` command, `targetForUpdate`/`updateToBranch`) -/

/-- Source `BranchRef` (`internal/git/revision.go`): `"refs/heads/" + b`. -/
def branchRef (b : String) : String := "refs/heads/" ++ b

/-- A configured remote. `mapFetch` stands for `Remote.MapFetch`, which maps
a remote ref through the remote's fetch refspecs to the local
remote-tracking ref (an empty string when nothing matches).
Modelled from the spec: `Remote.MapFetch` is not among the excerpted
sources; it is kept abstract as a function of the queried ref. -/
structure Remote where
  mapFetch : String → String

/-- Git configuration as consumed by `targetForUpdate`: `Value` lookups
(empty string when unset), `ListRemotes`, and the branch's configured
push remote.
Modelled from the spec: `Config.Value`/`Config.ListRemotes` are not among
the excerpted sources and are kept abstract. -/
structure Config where
  value : String → String
  remotes : List (String × Remote)
  pushRemoteOf : String → Option String

/-- Assoc-list lookup standing for Go map indexing (`remotes[remoteName]`). -/
def lookupRemote : List (String × Remote) → String → Option Remote
  | [], _ => none
  | (n, r) :: rest, k => if n = k then some r else lookupRemote rest k

/-- Source `inferPushRepo`.
Modelled from the spec: the function is not among the excerpted sources;
per §4.1 it resolves the branch's configured push-remote, failing (here
`none`) when none is configured. -/
def inferPushRepo (cfg : Config) (branch : String) : Option String :=
  cfg.pushRemoteOf branch

/-- Source `targetForUpdate`: the revision used for fast-forwarding a branch; an
empty string means no target could be found. If the branch's configured
upstream merge ref equals the branch's own ref, the upstream
remote-tracking branch is used; otherwise the push remote-tracking branch
with the same branch name. -/
def targetForUpdate (cfg : Config) (branch : String) : String :=
  if branch = "" then ""
  else
    let bref := branchRef branch
    let merge := cfg.value ("branch." ++ branch ++ ".merge")
    let pair : Option (String × String) :=
      if merge = bref then some (cfg.value ("branch." ++ branch ++ ".remote"), merge)
      else
        match inferPushRepo cfg branch with
        | none => none
        | some r => some (r, bref)
    match pair with
    | none => ""
    | some (remoteName, remoteRef) =>
      if remoteName = "" then ""
      else
        match lookupRemote cfg.remotes remoteName with
        | none => ""
        | some remote => remote.mapFetch remoteRef

/-- The engine operations `updateToBranch` consults: whether `ParseRev`
verifies a ref, and `IsAncestor`. -/
structure GitOps where
  revExists : String → Bool
  isAncestor : String → String → Bool

/-- The action `updateToBranch` ends up taking. -/
inductive UpdateOutcome where
  | noop
  | plainCheckout
  | fastForward (target : String)
  | divergedError
deriving DecidableEq

/-- Source `updateToBranch`: does nothing for the empty branch; performs a simple
checkout when there is no fast-forward target or the target cannot be
verified; reports divergence when the branch is not an ancestor of the
target; otherwise fast-forwards to the target. -/
def updateToBranch (g : GitOps) (cfg : Config) (branch : String) : UpdateOutcome :=
  if branch = "" then .noop
  else
    let target := targetForUpdate cfg branch
    if target = "" then .plainCheckout
    else if !(g.revExists target) then .plainCheckout
    else if !(g.isAncestor (branchRef branch) target) then .divergedError
    else .fastForward target

/-! ## Partial-amend diff reconciliation (`cmd/gg/requestpull.go`, `amendedDiffStatus`) -/

/-- A `git.DiffStatusEntry`: a path and its one-letter change code. -/
structure DiffEntry where
  name : String
  code : Char
deriving DecidableEq

/-- Go map insertion `m[k] = v`: overwrite the binding in place, or append. -/
def mapInsert : List (String × DiffEntry) → String → DiffEntry → List (String × DiffEntry)
  | [], k, v => [(k, v)]
  | (k', v') :: rest, k, v =>
    if k' = k then (k, v) :: rest else (k', v') :: mapInsert rest k v

/-- Go map lookup `m[k]`. -/
def mapGet : List (String × DiffEntry) → String → Option DiffEntry
  | [], _ => none
  | (k', v) :: rest, k => if k' = k then some v else mapGet rest k

/-- Go map `delete(m, k)`. -/
def mapDelete : List (String × DiffEntry) → String → List (String × DiffEntry)
  | [], _ => []
  | (k', v) :: rest, k => if k' = k then rest else (k', v) :: mapDelete rest k

/-- The `localMap` built by `amendedDiffStatus`: every local entry keyed by
its name, later entries overwriting earlier ones. -/
def buildLocalMap (loc : List DiffEntry) : List (String × DiffEntry) :=
  loc.foldl (fun m e => mapInsert m e.name e) []

/-- The loop of `amendedDiffStatus` that walks `status` in order, replacing
each entry whose name is in `localMap` with the local entry and deleting
the used binding. -/
def replaceLoop : List DiffEntry → List (String × DiffEntry) →
    List DiffEntry × List (String × DiffEntry)
  | [], m => ([], m)
  | e :: rest, m =>
    match mapGet m e.name with
    | some l =>
      let r := replaceLoop rest (mapDelete m e.name)
      (l :: r.1, r.2)
    | none =>
      let r := replaceLoop rest m
      (e :: r.1, r.2)

/-- Source `amendedDiffStatus` (the pure reconciliation of the three diff results;
the three `DiffStatus` invocations supply `base`, `filterBase` and `loc`):
drop from `base` the paths listed in `filterBase` but no longer in `loc`,
use the local entry as canonical for paths present in both, and append the
remaining local entries. -/
def amendedDiffStatus (base filterBase loc : List DiffEntry) : List DiffEntry :=
  let unmodified :=
    (filterBase.map (fun e => e.name)).filter
      (fun n => loc.all (fun e => e.name ≠ n))
  let status := base.filter (fun e => !(unmodified.contains e.name))
  let r := replaceLoop status (buildLocalMap loc)
  r.1 ++ r.2.map (fun kv => kv.2)

/-- A concrete configuration exercising the upstream path of
`targetForUpdate`: `branch.topic.merge = refs/heads/topic`,
`branch.topic.remote = origin`, one remote `origin`, no push remote. -/
def updateCfgW : Config :=
  ⟨fun k => if k = "branch.topic.merge" then "refs/heads/topic"
            else if k = "branch.topic.remote" then "origin" else "",
   [("origin", ⟨fun r => "refs/remotes/origin/" ++ r⟩)],
   fun _ => none⟩

/-! ## The history-rewriting orchestrator (`rebase`/`histedit`).

Modelled from the spec: the orchestrator's implementation is not among the
excerpted sources (only its tests are), so the divergence planner (§4.2),
the rewrite driver (§4.4) and the continuation state machine (§4.5) are
modelled here from the specification's wording, over an explicit commit
graph with file trees. -/

/-- A file tree (or a patch): path associated with content, in order. -/
abbrev Tree := List (String × String)

/-- Write one file into a tree: overwrite in place, or append. -/
def setFile : Tree → String → String → Tree
  | [], n, v => [(n, v)]
  | (n', v') :: rest, n, v =>
    if n' = n then (n, v) :: rest else (n', v') :: setFile rest n v

/-- Apply a patch (a sequence of file writes) to a tree. -/
def applyPatch (t : Tree) (p : Tree) : Tree :=
  p.foldl (fun acc nv => setFile acc nv.1 nv.2) t

/-- Modelled from the spec (§3 CommitRef/RewriteAction): a commit as the
orchestrator sees it — parent ids (first parent first), the files its
patch writes relative to the first parent, and its message. -/
structure CommitData where
  parents : List Nat
  patch : Tree
  msg : String
deriving DecidableEq

/-- The commit store: id associated with data. Ids are stable hashes. -/
abbrev Repo := List (Nat × CommitData)

/-- Commit lookup by id. -/
def lookupC : Repo → Nat → Option CommitData
  | [], _ => none
  | (i, d) :: rest, c => if i = c then some d else lookupC rest c

/-- Parent list of a commit (empty for unknown commits and roots). -/
def parentsOf (r : Repo) (c : Nat) : List Nat :=
  match lookupC r c with
  | none => []
  | some d => d.parents

/-- The first parent, if any. -/
def firstParentOf (r : Repo) (c : Nat) : Option Nat :=
  (parentsOf r c).head?

/-- Fuelled ancestor enumeration through all parents, self included. -/
def ancestorsF (r : Repo) : Nat → Nat → List Nat
  | 0, c => [c]
  | fuel + 1, c => c :: ((parentsOf r c).map (fun p => ancestorsF r fuel p)).flatten

/-- Commit `a` is an ancestor of `b` (reachability through all parents). -/
def isAncestorOf (r : Repo) (a b : Nat) : Bool :=
  (ancestorsF r r.length b).contains a

/-- The first-parent chain from `c` downward, newest first (fuelled). -/
def fpChainF (r : Repo) : Nat → Nat → List Nat
  | 0, c => [c]
  | fuel + 1, c =>
    c :: (match firstParentOf r c with
          | none => []
          | some p => fpChainF r fuel p)

/-- Commit `c` lies on the first-parent chain of `tip`. -/
def fpReachable (r : Repo) (tip c : Nat) : Bool :=
  (fpChainF r r.length tip).contains c

/-- Modelled from the spec (§4.2): the ordered commit list of a plan — the
first-parent chain walked down from the tip, cut at the first commit
already contained in `base`'s history, returned oldest first. -/
def planCommits (r : Repo) (base tip : Nat) : List Nat :=
  ((fpChainF r r.length tip).takeWhile (fun c => !(isAncestorOf r c base))).reverse

/-- Modelled from the spec (§6 `mergeBase`): the first commit on `a`'s
first-parent chain that is an ancestor of `b`. -/
def mergeBase (r : Repo) (a b : Nat) : Option Nat :=
  (fpChainF r r.length a).find? (fun c => isAncestorOf r c b)

/-- The divergence plan (§3). -/
structure DivergencePlan where
  base : Nat
  commits : List Nat
  target : Nat
deriving DecidableEq

/-- Planner failures (§4.2, §7 DivergenceError). -/
inductive PlanError where
  | noUpstream
  | emptyRange
deriving DecidableEq

/-- Modelled from the spec (§4.2): infer `base` — explicit override first,
else the parent of an explicit `src`, else the merge-base of branch and
upstream; `NoUpstream` when none can be inferred. -/
def inferBase (r : Repo) (tip : Nat) (srcO baseO upstream : Option Nat) :
    Except PlanError Nat :=
  match baseO with
  | some b => .ok b
  | none =>
    match srcO with
    | some s =>
      match firstParentOf r s with
      | some p => .ok p
      | none => .error .noUpstream
    | none =>
      match upstream with
      | some u =>
        match mergeBase r tip u with
        | some m => .ok m
        | none => .error .noUpstream
      | none => .error .noUpstream

/-- Modelled from the spec (§4.2): `dst` defaults to the upstream tip. -/
def inferDst (dstO upstream : Option Nat) : Except PlanError Nat :=
  match dstO with
  | some d => .ok d
  | none =>
    match upstream with
    | some u => .ok u
    | none => .error .noUpstream

/-- Modelled from the spec (§4.2):
`plan(srcOverride, baseOverride, dstOverride, currentBranchUpstream)`. -/
def plan (r : Repo) (tip : Nat) (srcO baseO dstO upstream : Option Nat) :
    Except PlanError DivergencePlan :=
  match inferBase r tip srcO baseO upstream with
  | .error e => .error e
  | .ok b =>
    match inferDst dstO upstream with
    | .error e => .error e
    | .ok d =>
      let cs := planCommits r b tip
      if cs.isEmpty then .error .emptyRange else .ok ⟨b, cs, d⟩

/-- The id list of a repo. -/
def idsOf (r : Repo) : List Nat := r.map (fun e => e.1)

/-- A fresh commit id: one past the largest id in the store. -/
def freshId (r : Repo) : Nat := r.foldr (fun e m => max e.1 m) 0 + 1

/-- Record a new commit object. -/
def insertC (r : Repo) (i : Nat) (d : CommitData) : Repo := (i, d) :: r

/-- Modelled from the spec (§4.4): replay the listed commits in order onto
`h`, each replayed commit keeping its patch and message with the current
head as its sole parent. -/
def replayOnto : Repo → Nat → List Nat → Repo × Nat
  | r, h, [] => (r, h)
  | r, h, c :: rest =>
    match lookupC r c with
    | none => replayOnto r h rest
    | some d =>
      let f := freshId r
      replayOnto (insertC r f ⟨[h], d.patch, d.msg⟩) f rest

/-- The `rebase` command pipeline: plan, then replay onto the target. On a
planning error no commit is written. -/
def rebaseCmd (r : Repo) (tip : Nat) (srcO baseO dstO upstream : Option Nat) :
    Repo × Except PlanError Nat :=
  match plan r tip srcO baseO dstO upstream with
  | .error e => (r, .error e)
  | .ok p =>
    let res := replayOnto r p.target p.commits
    (res.1, .ok res.2)

/-- Branch-ref map update (`name` now points at `v`). -/
def setBranch : List (String × Nat) → String → Nat → List (String × Nat)
  | [], n, v => [(n, v)]
  | (n', v') :: rest, n, v =>
    if n' = n then (n, v) :: rest else (n', v') :: setBranch rest n v

/-- Branch-ref lookup. -/
def lookupBranch : List (String × Nat) → String → Option Nat
  | [], _ => none
  | (n', v) :: rest, n => if n' = n then some v else lookupBranch rest n

/-- The `rebase` command acting on a named branch: the branch ref moves to the new tip
and keeps its name; on error nothing changes. -/
def rebaseOnBranch (r : Repo) (bs : List (String × Nat)) (name : String)
    (srcO baseO dstO upstream : Option Nat) :
    (Repo × List (String × Nat)) × Except PlanError Nat :=
  match lookupBranch bs name with
  | none => ((r, bs), .error .noUpstream)
  | some tip =>
    match rebaseCmd r tip srcO baseO dstO upstream with
    | (r', .error e) => ((r', bs), .error e)
    | (r', .ok h) => ((r', setBranch bs name h), .ok h)

/-- Rewrite actions (§3 RewriteAction). -/
inductive Action where
  | pick
  | edit
  | reword
deriving DecidableEq

/-- Modelled from the spec (§3 RewriteSession): the persisted paused state —
the rewritten head so far, the pending plan tail, and whether the current
step is still awaiting a message edit. -/
structure Session where
  head : Nat
  pending : List (Action × Nat)
  awaitingMessage : Bool
deriving DecidableEq

/-- Modelled from the spec (§4.4): execute a rewrite plan on top of `h`.
`pick` replays the commit; `reword` replays it with the message fed through
the message-edit hook; `edit` replays it and pauses, persisting a session
with the remaining steps pending. -/
def execPlan (hook : String → String) : Repo → Nat → List (Action × Nat) →
    Repo × Nat × Option Session
  | r, h, [] => (r, h, none)
  | r, h, (a, c) :: rest =>
    match lookupC r c with
    | none => execPlan hook r h rest
    | some d =>
      let f := freshId r
      match a with
      | .pick => execPlan hook (insertC r f ⟨[h], d.patch, d.msg⟩) f rest
      | .reword => execPlan hook (insertC r f ⟨[h], d.patch, hook d.msg⟩) f rest
      | .edit => (insertC r f ⟨[h], d.patch, d.msg⟩, f, some ⟨f, rest, false⟩)

/-- Fuelled tree of a commit: the first parent's tree with the commit's
patch applied. -/
def treeOfF (r : Repo) : Nat → Nat → Tree
  | 0, _ => []
  | fuel + 1, c =>
    match lookupC r c with
    | none => []
    | some d =>
      match d.parents with
      | [] => applyPatch [] d.patch
      | p :: _ => applyPatch (treeOfF r fuel p) d.patch

/-- Tree of a commit. -/
def treeOf (r : Repo) (c : Nat) : Tree := treeOfF r r.length c

/-- The paths of a tree. -/
def fileNames (t : Tree) : List String := t.map (fun nv => nv.1)

/-- File-content lookup in a tree. -/
def lookupFile : Tree → String → Option String
  | [], _ => none
  | (n', v) :: rest, n => if n' = n then some v else lookupFile rest n

/-- Modelled from the spec (§4.5): resume a paused session. The files
written since the pause that touch tracked paths (paths in the head
commit's tree) are amended into the head commit — untracked files are not
picked up; when nothing relevant changed and no message is awaited, the
head commit is left untouched. The pending plan tail then runs; the
message-edit hook fires only for an awaited message or a `reword` step. -/
def continueSession (hook : String → String) (r : Repo) (s : Session)
    (writes : Tree) : Repo × Nat × Option Session :=
  let mods := writes.filter (fun nv => (fileNames (treeOf r s.head)).contains nv.1)
  let step : Repo × Nat :=
    if mods.isEmpty && !s.awaitingMessage then (r, s.head)
    else
      match lookupC r s.head with
      | none => (r, s.head)
      | some d =>
        let f := freshId r
        (insertC r f ⟨d.parents, applyPatch d.patch mods,
          if s.awaitingMessage then hook d.msg else d.msg⟩, f)
  execPlan hook step.1 step.2 s.pending

/-- Continuation failures (§7 SessionStateError). -/
inductive SessionError where
  | noSessionInProgress
deriving DecidableEq

/-- Modelled from the spec (§4.5): `-continue` — validated against the
persisted session before anything is delegated; with no session it fails
and mutates nothing. -/
def continueCmd (hook : String → String) (r : Repo) (sess : Option Session)
    (writes : Tree) : Repo × Except SessionError (Nat × Option Session) :=
  match sess with
  | none => (r, .error .noSessionInProgress)
  | some s =>
    let res := continueSession hook r s writes
    (res.1, .ok (res.2.1, res.2.2))

/-- Modelled from the spec (§4.5): `-abort` — with no persisted session it
fails and mutates nothing; otherwise the branch returns to `orig`. -/
def abortCmd (r : Repo) (sess : Option Session) (orig : Nat) :
    Repo × Except SessionError Nat :=
  match sess with
  | none => (r, .error .noSessionInProgress)
  | some _ => (r, .ok orig)

/-- The `histedit` command pipeline: plan against the upstream, then run
the operator-edited rewrite plan over the local commits on top of the
inferred base. On a planning error no commit is written. -/
def histeditCmd (hook : String → String) (r : Repo) (tip : Nat)
    (dstO upstream : Option Nat) (mkPlan : List Nat → List (Action × Nat)) :
    Repo × Except PlanError (Nat × Option Session) :=
  match plan r tip none none dstO upstream with
  | .error e => (r, .error e)
  | .ok p =>
    let res := execPlan hook r p.base (mkPlan p.commits)
    (res.1, .ok (res.2.1, res.2.2))

/-! ### Concrete scenarios used by the rebase/histedit theorems. -/

/-- The `TestRebase` topology: commit 0 is the initial import, commit 1 the
diverging mainline change M (adds `mainline.txt`), commits 2 and 3 the
branch changes C1 (adds `foo.txt`) and C2 (adds `bar.txt`). -/
def repoC2 : Repo :=
  [(0, ⟨[], [("init.txt", "dummy")], "initial import"⟩),
   (1, ⟨[0], [("mainline.txt", "dummy")], "mainline change"⟩),
   (2, ⟨[0], [("foo.txt", "dummy")], "change 1"⟩),
   (3, ⟨[2], [("bar.txt", "dummy")], "change 2"⟩)]

/-- The state after `rebase` with no flags on branch `topic` of `repoC2`. -/
def rebasedC2 : (Repo × List (String × Nat)) × Except PlanError Nat :=
  rebaseOnBranch repoC2 [("main", 1), ("topic", 3)] "topic" none none none (some 1)

/-- A topology with a merge: commit 3 is a merge whose first parent is 2
and whose second parent is the sibling commit 1. -/
def repoMerge : Repo :=
  [(0, ⟨[], [("root.txt", "dummy")], "root"⟩),
   (1, ⟨[0], [("sibling.txt", "dummy")], "sibling feature"⟩),
   (2, ⟨[0], [("a.txt", "dummy")], "own change"⟩),
   (3, ⟨[2, 1], [("merge.txt", "dummy")], "merge sibling"⟩)]

/-- The `TestHistedit_Continue*` topology: 0 initial import, 1 the mainline
change, 2 and 3 the two branch commits. -/
def repoHE : Repo :=
  [(0, ⟨[], [("init.txt", "dummy")], "initial import"⟩),
   (1, ⟨[0], [("upstream.txt", "dummy")], "mainline change"⟩),
   (2, ⟨[0], [("foo.txt", "This is the original data")], "Divergence 1"⟩),
   (3, ⟨[2], [("bar.txt", "dummy")], "Divergence 2"⟩)]

/-- The operator's plan: `edit` the first local commit, `pick` the second. -/
def heEditor : List Nat → List (Action × Nat) :=
  fun cs =>
    match cs with
    | [c1, c2] => [(Action.edit, c1), (Action.pick, c2)]
    | _ => []

/-- The first `histedit` invocation on `repoHE`. -/
def heStartState : Repo × Except PlanError (Nat × Option Session) :=
  histeditCmd id repoHE 3 none (some 1) heEditor

/-- The repository right after the paused first invocation. -/
def repoHE1 : Repo := heStartState.1

/-- The files written while paused: `foo.txt` edited, plus one untracked
file. -/
def heWrites : Tree :=
  [("foo.txt", "This is edited history"), ("untracked.txt", "dummy")]

/-- Resuming the paused session with those writes. -/
def heContState : Repo × Except SessionError (Nat × Option Session) :=
  continueCmd id repoHE1 (some ⟨4, [(Action.pick, 3)], false⟩) heWrites

/-- The repository after `-continue`. -/
def repoHE2 : Repo := heContState.1

end GG

/-! ## Theorems -/

/-- Helper: a true `beginsWith` survives extending the text on the right. -/
theorem GG.beginsWith_append {p l : List Char} (h : GG.beginsWith p l = true)
    (z : List Char) : GG.beginsWith p (l ++ z) = true := by
  induction p generalizing l with
  | nil => simp [GG.beginsWith]
  | cons a ps ih =>
    cases l with
    | nil => simp [GG.beginsWith] at h
    | cons c cs =>
      simp only [GG.beginsWith, Bool.and_eq_true] at h ⊢
      exact ⟨h.1, ih h.2⟩

/-- Helper: `trimRightSpace l` is a left factor of `l`. -/
theorem GG.trimRightSpace_factor (l : List Char) :
    ∃ z, l = GG.trimRightSpace l ++ z := by
  refine ⟨((l.reverse).takeWhile GG.goIsSpace).reverse, ?_⟩
  unfold GG.trimRightSpace
  rw [← List.reverse_append, List.takeWhile_append_dropWhile, List.reverse_reverse]

/-- Helper: trimming is idempotent. -/
theorem GG.trimRightSpace_idem (l : List Char) :
    GG.trimRightSpace (GG.trimRightSpace l) = GG.trimRightSpace l := by
  unfold GG.trimRightSpace
  rw [List.reverse_reverse, List.dropWhile_idempotent]

/-- Helper: members of `dropTrailingBlanks ls` are members of `ls`. -/
theorem GG.mem_dropTrailingBlanks {x : List Char} {ls : List (List Char)}
    (h : x ∈ GG.dropTrailingBlanks ls) : x ∈ ls := by
  unfold GG.dropTrailingBlanks at h
  rw [List.mem_reverse] at h
  have := List.dropWhile_sublist (l := ls.reverse) (p := List.isEmpty)
  have hm := this.subset h
  rwa [List.mem_reverse] at hm

/-- Helper: the head of a `dropWhile` run fails the predicate. -/
theorem GG.head?_dropWhile {α : Type} (p : α → Bool) (l : List α) {x : α}
    (h : (l.dropWhile p).head? = some x) : p x = false := by
  induction l with
  | nil => simp [List.dropWhile] at h
  | cons a t ih =>
    rw [List.dropWhile_cons] at h
    by_cases hp : p a = true
    · rw [if_pos hp] at h; exact ih h
    · rw [if_neg hp] at h
      simp only [List.head?_cons, Option.some.injEq] at h
      subst h
      exact Bool.eq_false_iff.mpr hp

/-- C9: for every editor buffer `s` and non-empty comment marker `p`, the
cleanup pipeline yields lines none of which begins with `p` (so the result
contains no comment line), each free of trailing white space, with no
trailing blank line; `cleanupMessage` is exactly those lines re-joined with
one newline after each. -/
theorem cleanupMessage_no_comment_lines (s p : List Char) (hp : p ≠ []) :
    (∀ l ∈ GG.cleanupLines s p, GG.beginsWith p l = false) ∧
    (∀ l ∈ GG.cleanupLines s p, GG.trimRightSpace l = l) ∧
    (∀ l, (GG.cleanupLines s p).getLast? = some l → l ≠ []) ∧
    GG.cleanupMessage s p =
      (GG.cleanupLines s p).foldr (fun l acc => l ++ '\n' :: acc) [] := by
  refine ⟨?_, ?_, ?_, rfl⟩
  · intro l hl
    have hl' := GG.mem_dropTrailingBlanks hl
    rcases List.mem_map.mp hl' with ⟨y, hy, rfl⟩
    have hkeep := (List.mem_filter.mp hy).2
    have hpe : p.isEmpty = false := by
      cases p with
      | nil => exact absurd rfl hp
      | cons a t => rfl
    rw [hpe] at hkeep
    simp only [Bool.not_true, Bool.true_and, Bool.not_eq_true'] at hkeep
    by_contra hb
    rw [Bool.not_eq_false] at hb
    rcases GG.trimRightSpace_factor y with ⟨z, hz⟩
    have : GG.beginsWith p y = true := by
      rw [hz]; exact GG.beginsWith_append hb z
    rw [this] at hkeep
    exact Bool.true_eq_false ▸ hkeep
  · intro l hl
    have hl' := GG.mem_dropTrailingBlanks hl
    rcases List.mem_map.mp hl' with ⟨y, _, rfl⟩
    exact GG.trimRightSpace_idem y
  · intro l hl hnil
    unfold GG.cleanupLines GG.dropTrailingBlanks at hl
    rw [List.getLast?_reverse] at hl
    have := GG.head?_dropWhile List.isEmpty _ hl
    rw [hnil] at this
    exact Bool.true_eq_false ▸ this

/-- Witness for C9 on a concrete buffer with a `#` marker. -/
theorem cleanupMessage_no_comment_lines_witness :
    (['#'] : List Char) ≠ [] ∧
    ((∀ l ∈ GG.cleanupLines ("subject  \n# a comment\nbody\n\n".toList) ['#'],
        GG.beginsWith ['#'] l = false) ∧
      (∀ l ∈ GG.cleanupLines ("subject  \n# a comment\nbody\n\n".toList) ['#'],
        GG.trimRightSpace l = l) ∧
      (∀ l, (GG.cleanupLines ("subject  \n# a comment\nbody\n\n".toList) ['#']).getLast? =
          some l → l ≠ []) ∧
      GG.cleanupMessage ("subject  \n# a comment\nbody\n\n".toList) ['#'] =
        (GG.cleanupLines ("subject  \n# a comment\nbody\n\n".toList) ['#']).foldr
          (fun l acc => l ++ '\n' :: acc) []) :=
  ⟨by decide, cleanupMessage_no_comment_lines _ ['#'] (by decide)⟩

/-- Helper: membership after a Go-map insertion. -/
theorem GG.mem_mapInsert {m : List (String × GG.DiffEntry)} {k : String}
    {v : GG.DiffEntry} {kv : String × GG.DiffEntry} (h : kv ∈ GG.mapInsert m k v) :
    kv = (k, v) ∨ kv ∈ m := by
  induction m with
  | nil => simpa [GG.mapInsert] using h
  | cons a rest ih =>
    by_cases he : a.1 = k
    · simp only [GG.mapInsert, he, if_pos rfl] at h
      rcases List.mem_cons.mp h with h1 | h1
      · exact Or.inl h1
      · exact Or.inr (List.mem_cons_of_mem a h1)
    · rw [show (a :: rest : List _) = (a.1, a.2) :: rest by rfl] at h ⊢
      simp only [GG.mapInsert, if_neg he] at h
      rcases List.mem_cons.mp h with h1 | h1
      · exact Or.inr (List.mem_cons.mpr (Or.inl h1))
      · rcases ih h1 with h2 | h2
        · exact Or.inl h2
        · exact Or.inr (List.mem_cons.mpr (Or.inr h2))

/-- Helper: looking up the key just inserted. -/
theorem GG.mapGet_mapInsert_self (m : List (String × GG.DiffEntry)) (k : String)
    (v : GG.DiffEntry) : GG.mapGet (GG.mapInsert m k v) k = some v := by
  induction m with
  | nil => simp [GG.mapInsert, GG.mapGet]
  | cons a rest ih =>
    by_cases he : a.1 = k
    · rw [show (a :: rest : List _) = (a.1, a.2) :: rest by rfl]
      simp [GG.mapInsert, he, GG.mapGet]
    · rw [show (a :: rest : List _) = (a.1, a.2) :: rest by rfl]
      simp only [GG.mapInsert, if_neg he, GG.mapGet]
      exact ih

/-- Helper: looking up another key after an insertion. -/
theorem GG.mapGet_mapInsert_ne (m : List (String × GG.DiffEntry)) {k q : String}
    (v : GG.DiffEntry) (hne : k ≠ q) :
    GG.mapGet (GG.mapInsert m k v) q = GG.mapGet m q := by
  induction m with
  | nil => simp [GG.mapInsert, GG.mapGet, hne]
  | cons a rest ih =>
    by_cases he : a.1 = k
    · rw [show (a :: rest : List _) = (a.1, a.2) :: rest by rfl]
      simp only [GG.mapInsert, if_pos he, GG.mapGet, if_neg hne]
      rw [he, if_neg hne]
    · rw [show (a :: rest : List _) = (a.1, a.2) :: rest by rfl]
      simp only [GG.mapInsert, if_neg he, GG.mapGet]
      by_cases ha : a.1 = q
      · rw [if_pos ha, if_pos ha]
      · rw [if_neg ha, if_neg ha]
        exact ih

/-- Helper: deletion only removes bindings. -/
theorem GG.mem_mapDelete {m : List (String × GG.DiffEntry)} {k : String}
    {kv : String × GG.DiffEntry} (h : kv ∈ GG.mapDelete m k) : kv ∈ m := by
  induction m with
  | nil => simp [GG.mapDelete] at h
  | cons a rest ih =>
    rw [show (a :: rest : List _) = (a.1, a.2) :: rest by rfl] at h ⊢
    simp only [GG.mapDelete] at h
    by_cases he : a.1 = k
    · rw [if_pos he] at h
      exact List.mem_cons_of_mem _ h
    · rw [if_neg he] at h
      rcases List.mem_cons.mp h with h1 | h1
      · exact List.mem_cons.mpr (Or.inl h1)
      · exact List.mem_cons_of_mem _ (ih h1)

/-- Helper: a present binding makes `mapGet` succeed. -/
theorem GG.mapGet_isSome_of_mem {m : List (String × GG.DiffEntry)}
    {kv : String × GG.DiffEntry} (h : kv ∈ m) : ∃ w, GG.mapGet m kv.1 = some w := by
  induction m with
  | nil => simp at h
  | cons a rest ih =>
    rw [show (a :: rest : List _) = (a.1, a.2) :: rest by rfl]
    simp only [GG.mapGet]
    by_cases he : a.1 = kv.1
    · exact ⟨a.2, by rw [if_pos he]⟩
    · rw [if_neg he]
      rcases List.mem_cons.mp h with h1 | h1
      · exact absurd (congrArg Prod.fst h1.symm) he
      · exact ih h1

/-- Helper: a successful `mapGet` exposes a binding. -/
theorem GG.mapGet_mem {m : List (String × GG.DiffEntry)} {q : String}
    {v : GG.DiffEntry} (h : GG.mapGet m q = some v) : (q, v) ∈ m := by
  induction m with
  | nil => simp [GG.mapGet] at h
  | cons a rest ih =>
    rw [show (a :: rest : List _) = (a.1, a.2) :: rest by rfl] at h ⊢
    simp only [GG.mapGet] at h
    by_cases he : a.1 = q
    · rw [if_pos he] at h
      have hv : a.2 = v := Option.some.inj h
      exact List.mem_cons.mpr (Or.inl (by rw [← he, ← hv]))
    · rw [if_neg he] at h
      exact List.mem_cons_of_mem _ (ih h)

/-- Helper: deleting a key preserves lookups of other keys. -/
theorem GG.mapGet_mapDelete_ne (m : List (String × GG.DiffEntry)) {k q : String}
    (hne : q ≠ k) : GG.mapGet (GG.mapDelete m k) q = GG.mapGet m q := by
  induction m with
  | nil => simp [GG.mapDelete]
  | cons a rest ih =>
    rw [show (a :: rest : List _) = (a.1, a.2) :: rest by rfl]
    simp only [GG.mapDelete, GG.mapGet]
    by_cases he : a.1 = k
    · have hq : ¬(a.1 = q) := fun h => hne (by rw [← h, he])
      rw [if_pos he, if_neg hq]
    · simp only [if_neg he, GG.mapGet]
      by_cases ha : a.1 = q
      · rw [if_pos ha, if_pos ha]
      · rw [if_neg ha, if_neg ha]
        exact ih

/-- Helper: every binding of `buildLocalMap loc` keys a member of `loc` by
its own name. -/
theorem GG.buildLocalMap_mem {loc : List GG.DiffEntry}
    {kv : String × GG.DiffEntry} (h : kv ∈ GG.buildLocalMap loc) :
    kv.2 ∈ loc ∧ kv.1 = kv.2.name := by
  suffices H : ∀ (l : List GG.DiffEntry) (m : List (String × GG.DiffEntry)),
      kv ∈ l.foldl (fun m e => GG.mapInsert m e.name e) m →
      (kv.2 ∈ l ∧ kv.1 = kv.2.name) ∨ kv ∈ m by
    rcases H loc [] h with h1 | h1
    · exact h1
    · simp at h1
  intro l
  induction l with
  | nil => exact fun m h => Or.inr h
  | cons a t ih =>
    intro m h
    rcases ih (GG.mapInsert m a.name a) h with h1 | h1
    · exact Or.inl ⟨List.mem_cons_of_mem a h1.1, h1.2⟩
    · rcases GG.mem_mapInsert h1 with h2 | h2
      · subst h2
        exact Or.inl ⟨List.mem_cons_self a t, rfl⟩
      · exact Or.inr h2

/-- Helper: a fold over entries whose names all avoid `q` leaves lookups
of `q` unchanged. -/
theorem GG.foldl_mapInsert_get_untouched (t : List GG.DiffEntry)
    (m : List (String × GG.DiffEntry)) (q : String)
    (h : ∀ e ∈ t, e.name ≠ q) :
    GG.mapGet (t.foldl (fun m e => GG.mapInsert m e.name e) m) q = GG.mapGet m q := by
  induction t generalizing m with
  | nil => rfl
  | cons a s ih =>
    have := ih (GG.mapInsert m a.name a) (fun e he => h e (List.mem_cons_of_mem a he))
    rw [List.foldl_cons, this,
      GG.mapGet_mapInsert_ne m a (h a (List.mem_cons_self a s))]

/-- Helper: under name-uniqueness, `buildLocalMap` maps each local entry's
name to that entry. -/
theorem GG.buildLocalMap_get {loc : List GG.DiffEntry} {e : GG.DiffEntry}
    (he : e ∈ loc) (hu : ∀ e' ∈ loc, e'.name = e.name → e' = e) :
    GG.mapGet (GG.buildLocalMap loc) e.name = some e := by
  suffices H : ∀ (l : List GG.DiffEntry) (m : List (String × GG.DiffEntry)),
      e ∈ l → (∀ e' ∈ l, e'.name = e.name → e' = e) →
      GG.mapGet (l.foldl (fun m e => GG.mapInsert m e.name e) m) e.name = some e from
    H loc [] he hu
  intro l
  induction l with
  | nil => intro m h; simp at h
  | cons a t ih =>
    intro m hmem hun
    by_cases ht : e ∈ t
    · exact ih (GG.mapInsert m a.name a) ht
        (fun e' he' => hun e' (List.mem_cons_of_mem a he'))
    · have hae : a = e := by
        rcases List.mem_cons.mp hmem with h1 | h1
        · exact h1.symm
        · exact absurd h1 ht
      subst hae
      have hnone : ∀ e' ∈ t, e'.name ≠ a.name := by
        intro e' he' hn
        exact ht ((hun e' (List.mem_cons_of_mem a he') hn) ▸ he')
      rw [List.foldl_cons, GG.foldl_mapInsert_get_untouched t _ a.name hnone,
        GG.mapGet_mapInsert_self]

/-- Helper: a value the map holds either surfaces in the replaced output or
survives in the residual map. -/
theorem GG.replaceLoop_conserves (s : List GG.DiffEntry)
    (m : List (String × GG.DiffEntry)) (q : String) (v : GG.DiffEntry)
    (h : GG.mapGet m q = some v) :
    v ∈ (GG.replaceLoop s m).1 ∨ GG.mapGet (GG.replaceLoop s m).2 q = some v := by
  induction s generalizing m with
  | nil => exact Or.inr h
  | cons e rest ih =>
    simp only [GG.replaceLoop]
    by_cases hq : e.name = q
    · rw [hq, h]
      exact Or.inl (List.mem_cons_self _ _)
    · cases hg : GG.mapGet m e.name with
      | none =>
        rcases ih m h with h1 | h1
        · exact Or.inl (List.mem_cons_of_mem _ h1)
        · exact Or.inr h1
      | some l =>
        have hd : GG.mapGet (GG.mapDelete m e.name) q = some v := by
          rw [GG.mapGet_mapDelete_ne m (fun hh => hq hh.symm)]
          exact h
        rcases ih (GG.mapDelete m e.name) hd with h1 | h1
        · exact Or.inl (List.mem_cons_of_mem _ h1)
        · exact Or.inr h1

/-- Helper: the residual map only shrinks. -/
theorem GG.replaceLoop_residual_sub (s : List GG.DiffEntry)
    (m : List (String × GG.DiffEntry)) {kv : String × GG.DiffEntry}
    (h : kv ∈ (GG.replaceLoop s m).2) : kv ∈ m := by
  induction s generalizing m with
  | nil => exact h
  | cons e rest ih =>
    simp only [GG.replaceLoop] at h
    cases hg : GG.mapGet m e.name with
    | none =>
      rw [hg] at h
      exact ih m h
    | some l =>
      rw [hg] at h
      exact GG.mem_mapDelete (ih (GG.mapDelete m e.name) h)

/-- Helper: every replaced-output entry is an input entry or a map value. -/
theorem GG.replaceLoop_output_src (s : List GG.DiffEntry)
    (m : List (String × GG.DiffEntry)) {x : GG.DiffEntry}
    (h : x ∈ (GG.replaceLoop s m).1) : x ∈ s ∨ ∃ k, (k, x) ∈ m := by
  induction s generalizing m with
  | nil => simp [GG.replaceLoop] at h
  | cons e rest ih =>
    simp only [GG.replaceLoop] at h
    cases hg : GG.mapGet m e.name with
    | none =>
      rw [hg] at h
      rcases List.mem_cons.mp h with h1 | h1
      · exact Or.inl (h1 ▸ List.mem_cons_self e rest)
      · rcases ih m h1 with h2 | h2
        · exact Or.inl (List.mem_cons_of_mem e h2)
        · exact Or.inr h2
    | some l =>
      rw [hg] at h
      rcases List.mem_cons.mp h with h1 | h1
      · exact Or.inr ⟨e.name, h1 ▸ GG.mapGet_mem hg⟩
      · rcases ih (GG.mapDelete m e.name) h1 with h2 | h2
        · exact Or.inl (List.mem_cons_of_mem e h2)
        · rcases h2 with ⟨k, hk⟩
          exact Or.inr ⟨k, GG.mem_mapDelete hk⟩

/-- Helper: an input entry whose name the map does not hold is kept as-is. -/
theorem GG.replaceLoop_keeps (s : List GG.DiffEntry)
    (m : List (String × GG.DiffEntry)) {e : GG.DiffEntry}
    (hmem : e ∈ s) (h : GG.mapGet m e.name = none) :
    e ∈ (GG.replaceLoop s m).1 := by
  induction s generalizing m with
  | nil => simp at hmem
  | cons a rest ih =>
    simp only [GG.replaceLoop]
    rcases List.mem_cons.mp hmem with h1 | h1
    · subst h1
      rw [h]
      exact List.mem_cons_self _ _
    · cases hg : GG.mapGet m a.name with
      | none => exact List.mem_cons_of_mem _ (ih m h1 h)
      | some l =>
        refine List.mem_cons_of_mem _ (ih (GG.mapDelete m a.name) h1 ?_)
        cases hd : GG.mapGet (GG.mapDelete m a.name) e.name with
        | none => rfl
        | some w =>
          rcases GG.mapGet_isSome_of_mem (GG.mem_mapDelete (GG.mapGet_mem hd)) with ⟨u, hu⟩
          rw [h] at hu
          exact absurd hu (by simp)

/-- C8: the partial-amend reconciliation behaves as a set reconciliation
keyed by path: a path present in both the baseline and the filtered local
diff surfaces as the local entry; paths of the filtered baseline no longer
modified locally disappear; baseline entries touched by neither the
filtered baseline nor the local diff are preserved verbatim. -/
theorem amendedDiffStatus_reconciles (base filterBase loc : List GG.DiffEntry)
    (hl : (loc.map (fun e => e.name)).Nodup) :
    (∀ l ∈ loc, (∃ e ∈ base, e.name = l.name) →
      l ∈ GG.amendedDiffStatus base filterBase loc) ∧
    (∀ e ∈ base, (∃ f ∈ filterBase, f.name = e.name) → (∀ l ∈ loc, l.name ≠ e.name) →
      ∀ x ∈ GG.amendedDiffStatus base filterBase loc, x.name ≠ e.name) ∧
    (∀ e ∈ base, (∀ f ∈ filterBase, f.name ≠ e.name) → (∀ l ∈ loc, l.name ≠ e.name) →
      e ∈ GG.amendedDiffStatus base filterBase loc) := by
  have hinj := List.inj_on_of_nodup_map hl
  refine ⟨?_, ?_, ?_⟩
  · intro l hmem _
    have hget : GG.mapGet (GG.buildLocalMap loc) l.name = some l :=
      GG.buildLocalMap_get hmem (fun e' he' hn => hinj he' hmem hn)
    simp only [GG.amendedDiffStatus]
    rcases GG.replaceLoop_conserves _ (GG.buildLocalMap loc) l.name l hget with h1 | h1
    · exact List.mem_append_left _ h1
    · refine List.mem_append_right _ ?_
      exact List.mem_map.mpr ⟨(l.name, l), GG.mapGet_mem h1, rfl⟩
  · intro e hmem hfb hloc x hx
    simp only [GG.amendedDiffStatus] at hx
    have hunm : e.name ∈ (filterBase.map (fun f => f.name)).filter
        (fun n => loc.all (fun l => decide (l.name ≠ n))) := by
      rcases hfb with ⟨f, hf, hfn⟩
      refine List.mem_filter.mpr ⟨List.mem_map.mpr ⟨f, hf, hfn⟩, ?_⟩
      rw [List.all_eq_true]
      intro l hlm
      exact decide_eq_true (hloc l hlm)
    have hstatus : ∀ y ∈ (base.filter (fun b =>
        !(((filterBase.map (fun f => f.name)).filter
            (fun n => loc.all (fun l => decide (l.name ≠ n)))).contains b.name))),
        y.name ≠ e.name := by
      intro y hy hn
      have := (List.mem_filter.mp hy).2
      rw [Bool.not_eq_true', ← Bool.not_eq_true] at this
      exact this (List.elem_iff.mpr (hn ▸ hunm))
    rcases List.mem_append.mp hx with h1 | h1
    · rcases GG.replaceLoop_output_src _ _ h1 with h2 | h2
      · exact hstatus x h2
      · rcases h2 with ⟨k, hk⟩
        have hv := GG.buildLocalMap_mem hk
        exact hloc x hv.1
    · rcases List.mem_map.mp h1 with ⟨kv, hkv, rfl⟩
      have hv := GG.buildLocalMap_mem (GG.replaceLoop_residual_sub _ _ hkv)
      exact hloc kv.2 hv.1
  · intro e hmem hfb hloc
    simp only [GG.amendedDiffStatus]
    have hkeep : e ∈ base.filter (fun b =>
        !(((filterBase.map (fun f => f.name)).filter
            (fun n => loc.all (fun l => decide (l.name ≠ n)))).contains b.name)) := by
      refine List.mem_filter.mpr ⟨hmem, ?_⟩
      rw [Bool.not_eq_true', ← Bool.not_eq_true]
      intro hc
      have := List.mem_filter.mp (List.elem_iff.mp hc)
      rcases List.mem_map.mp this.1 with ⟨f, hf, hfn⟩
      exact hfb f hf hfn
    have hnone : GG.mapGet (GG.buildLocalMap loc) e.name = none := by
      cases hg : GG.mapGet (GG.buildLocalMap loc) e.name with
      | none => rfl
      | some v =>
        have hv := GG.buildLocalMap_mem (GG.mapGet_mem hg)
        exact absurd hv.2.symm (hloc v hv.1)
    exact List.mem_append_left _ (GG.replaceLoop_keeps _ _ hkeep hnone)

/-- Witness for C8 on concrete diff lists: baseline `[a:M, b:M, c:D]`,
filtered baseline `[b:M, c:D]`, local `[b:A]` — `b` takes the local entry,
`c` disappears, `a` is preserved. -/
theorem amendedDiffStatus_reconciles_witness :
    (⟨"b", 'A'⟩ : GG.DiffEntry) ∈
      GG.amendedDiffStatus [⟨"a", 'M'⟩, ⟨"b", 'M'⟩, ⟨"c", 'D'⟩]
        [⟨"b", 'M'⟩, ⟨"c", 'D'⟩] [⟨"b", 'A'⟩] ∧
    (∀ x ∈ GG.amendedDiffStatus [⟨"a", 'M'⟩, ⟨"b", 'M'⟩, ⟨"c", 'D'⟩]
        [⟨"b", 'M'⟩, ⟨"c", 'D'⟩] [⟨"b", 'A'⟩], x.name ≠ "c") ∧
    (⟨"a", 'M'⟩ : GG.DiffEntry) ∈
      GG.amendedDiffStatus [⟨"a", 'M'⟩, ⟨"b", 'M'⟩, ⟨"c", 'D'⟩]
        [⟨"b", 'M'⟩, ⟨"c", 'D'⟩] [⟨"b", 'A'⟩] := by
  have H := amendedDiffStatus_reconciles [⟨"a", 'M'⟩, ⟨"b", 'M'⟩, ⟨"c", 'D'⟩]
    [⟨"b", 'M'⟩, ⟨"c", 'D'⟩] [⟨"b", 'A'⟩] (by decide)
  refine ⟨?_, ?_, ?_⟩
  · exact H.1 ⟨"b", 'A'⟩ (by decide)
      ⟨⟨"b", 'M'⟩, by decide, rfl⟩
  · exact H.2.1 ⟨"c", 'D'⟩ (by decide) ⟨⟨"c", 'D'⟩, by decide, rfl⟩ (by decide)
  · exact H.2.2 ⟨"a", 'M'⟩ (by decide) (by decide) (by decide)

/-- C4: `targetForUpdate` uses the configured remote-tracking ref when the
branch's configured upstream merge ref equals the branch's own ref, falls
back to the push remote with the same branch name otherwise, and returns
the empty "no target" string (its return type has no error case) when the
push remote is unset, the remote name is empty, or the remote is unknown;
`updateToBranch` performs a plain checkout when there is no target or the
target cannot be verified, rather than failing. -/
theorem targetForUpdate_spec (cfg : GG.Config) (b : String) (hb : b ≠ "") :
    (∀ rem, cfg.value ("branch." ++ b ++ ".merge") = GG.branchRef b →
      cfg.value ("branch." ++ b ++ ".remote") ≠ "" →
      GG.lookupRemote cfg.remotes (cfg.value ("branch." ++ b ++ ".remote")) = some rem →
      GG.targetForUpdate cfg b = rem.mapFetch (GG.branchRef b)) ∧
    (∀ r rem, cfg.value ("branch." ++ b ++ ".merge") ≠ GG.branchRef b →
      GG.inferPushRepo cfg b = some r → r ≠ "" →
      GG.lookupRemote cfg.remotes r = some rem →
      GG.targetForUpdate cfg b = rem.mapFetch (GG.branchRef b)) ∧
    (cfg.value ("branch." ++ b ++ ".merge") ≠ GG.branchRef b →
      GG.inferPushRepo cfg b = none → GG.targetForUpdate cfg b = "") ∧
    (∀ r, cfg.value ("branch." ++ b ++ ".merge") ≠ GG.branchRef b →
      GG.inferPushRepo cfg b = some r → GG.lookupRemote cfg.remotes r = none →
      GG.targetForUpdate cfg b = "") ∧
    (cfg.value ("branch." ++ b ++ ".merge") = GG.branchRef b →
      GG.lookupRemote cfg.remotes (cfg.value ("branch." ++ b ++ ".remote")) = none →
      GG.targetForUpdate cfg b = "") ∧
    (∀ g : GG.GitOps, GG.targetForUpdate cfg b = "" →
      GG.updateToBranch g cfg b = .plainCheckout) ∧
    (∀ g : GG.GitOps, g.revExists (GG.targetForUpdate cfg b) = false →
      GG.updateToBranch g cfg b = .plainCheckout) := by
  refine ⟨?_, ?_, ?_, ?_, ?_, ?_, ?_⟩
  · intro rem hm hrn hlk
    simp [GG.targetForUpdate, hb, hm, hrn, hlk]
  · intro r rem hm hpush hr hlk
    simp [GG.targetForUpdate, hb, hm, hpush, hr, hlk]
  · intro hm hpush
    simp [GG.targetForUpdate, hb, hm, hpush]
  · intro r hm hpush hlk
    simp [GG.targetForUpdate, hb, hm, hpush, hlk]
  · intro hm hlk
    simp [GG.targetForUpdate, hb, hm, hlk]
  · intro g ht
    simp [GG.updateToBranch, hb, ht]
  · intro g hrev
    by_cases ht : GG.targetForUpdate cfg b = ""
    · simp [GG.updateToBranch, hb, ht]
    · simp [GG.updateToBranch, hb, ht, hrev]

/-- Witness for C4: a concrete configuration where the upstream merge ref
matches the branch, the remote-tracking ref resolves, and a second engine
view where it does not verify, causing a plain checkout. -/
theorem targetForUpdate_spec_witness :
    GG.targetForUpdate GG.updateCfgW "topic" = "refs/remotes/origin/refs/heads/topic" ∧
    GG.updateToBranch ⟨fun _ => false, fun _ _ => true⟩ GG.updateCfgW "topic" =
      .plainCheckout := by
  constructor
  · exact (targetForUpdate_spec GG.updateCfgW "topic" (by decide)).1
      ⟨fun r => "refs/remotes/origin/" ++ r⟩ (by decide) (by decide) rfl
  · exact (targetForUpdate_spec GG.updateCfgW "topic" (by decide)).2.2.2.2.2.2
      ⟨fun _ => false, fun _ _ => true⟩ rfl

/-- C10: every two-byte status code accepted by `isValid` other than the
ignored code `!!` satisfies at least one of the classification predicates,
so the `status` command's "unrecognized status" `default:` branch
(`statusClass = none`) is unreachable for valid non-ignored entries. -/
theorem statusClass_total_on_valid (c : GG.StatusCode)
    (hv : GG.isValid c = true) (hi : GG.isIgnored c = false) :
    (GG.isModified c || GG.isAdded c || GG.isRemoved c || GG.isCopied c ||
      GG.isRenamed c || GG.isMissing c || GG.isUntracked c || GG.isUnmerged c) = true ∧
    (GG.statusClass c).isSome = true := by
  have hmem : c ∈ GG.validCodes := of_decide_eq_true hv
  fin_cases hmem <;> first
    | (exact absurd hi (by decide))
    | (constructor <;> decide)

/-- Witness for C10 at the concrete code `" M"` (work-tree modified). -/
theorem statusClass_total_on_valid_witness :
    (GG.isModified (' ', 'M') || GG.isAdded (' ', 'M') || GG.isRemoved (' ', 'M') ||
      GG.isCopied (' ', 'M') || GG.isRenamed (' ', 'M') || GG.isMissing (' ', 'M') ||
      GG.isUntracked (' ', 'M') || GG.isUnmerged (' ', 'M')) = true ∧
    (GG.statusClass (' ', 'M')).isSome = true :=
  statusClass_total_on_valid (' ', 'M') (by decide) (by decide)

/-- C1: with no configured upstream and no explicit base or dst, both the
`rebase` pipeline and the `histedit` pipeline fail with `NoUpstream` and
leave the commit store untouched — no commit is rewritten. -/
theorem plan_no_upstream_fails (r : GG.Repo) (tip : Nat) (hook : String → String)
    (mk : List Nat → List (GG.Action × Nat)) :
    GG.rebaseCmd r tip none none none none = (r, .error .noUpstream) ∧
    GG.histeditCmd hook r tip none none mk = (r, .error .noUpstream) :=
  ⟨rfl, rfl⟩

/-- C2: on the two-commit divergence scenario (`repoC2`), `rebase` with no
flags produces new commits 4 = C1' and 5 = C2' with parent chain
base 0 → M 1 → C1' 4 → C2' 5; `foo.txt` exists from C1' on, `bar.txt` only
from C2' on, the `topic` branch ref still names `topic` (now at 5), and the
original commits 2 and 3 are unreachable from the new tip. -/
theorem rebase_two_commit_scenario :
    GG.rebasedC2.2 = .ok 5 ∧
    GG.lookupC GG.repoC2 4 = none ∧
    GG.lookupC GG.repoC2 5 = none ∧
    GG.rebasedC2.1.2 = [("main", 1), ("topic", 5)] ∧
    GG.parentsOf GG.rebasedC2.1.1 5 = [4] ∧
    GG.parentsOf GG.rebasedC2.1.1 4 = [1] ∧
    GG.parentsOf GG.rebasedC2.1.1 1 = [0] ∧
    (GG.fileNames (GG.treeOf GG.rebasedC2.1.1 4)).contains "foo.txt" = true ∧
    (GG.fileNames (GG.treeOf GG.rebasedC2.1.1 4)).contains "mainline.txt" = true ∧
    (GG.fileNames (GG.treeOf GG.rebasedC2.1.1 4)).contains "bar.txt" = false ∧
    (GG.fileNames (GG.treeOf GG.rebasedC2.1.1 5)).contains "foo.txt" = true ∧
    (GG.fileNames (GG.treeOf GG.rebasedC2.1.1 5)).contains "bar.txt" = true ∧
    GG.isAncestorOf GG.rebasedC2.1.1 2 5 = false ∧
    GG.isAncestorOf GG.rebasedC2.1.1 3 5 = false :=
  ⟨rfl, rfl, rfl, rfl, rfl, rfl, rfl, rfl, rfl, rfl, rfl, rfl, rfl, rfl⟩

/-- Helper: the first-parent chain always starts at its tip. -/
theorem GG.fpChainF_head (r : GG.Repo) (fuel tip : Nat) :
    ∃ xs, GG.fpChainF r fuel tip = tip :: xs := by
  cases fuel with
  | zero => exact ⟨[], rfl⟩
  | succ n => exact ⟨_, rfl⟩

/-- C3: when planning succeeds with an explicit base, the ordered commit
list is exactly the first-parent chain strictly after `base` up to and
including the tip: every replayed commit lies on the tip's first-parent
chain and is not in `base`'s history, any commit off the first-parent
chain — even one reachable from the tip through a merge's second parent —
is never replayed, and the newest replayed commit is the tip itself. -/
theorem plan_commits_first_parent_only (r : GG.Repo) (tip b : Nat)
    (dstO upstream : Option Nat) (p : GG.DivergencePlan)
    (hp : GG.plan r tip none (some b) dstO upstream = .ok p) :
    p.commits = GG.planCommits r b tip ∧
    (∀ c ∈ p.commits, GG.fpReachable r tip c = true) ∧
    (∀ c ∈ p.commits, GG.isAncestorOf r c b = false) ∧
    (∀ c, GG.fpReachable r tip c = false → c ∉ p.commits) ∧
    p.commits.getLast? = some tip := by
  have hb : GG.inferBase r tip none (some b) upstream = .ok b := rfl
  unfold GG.plan at hp
  rw [hb] at hp
  cases hd : GG.inferDst dstO upstream with
  | error e => rw [hd] at hp; exact absurd hp (by simp)
  | ok d =>
    rw [hd] at hp
    dsimp only at hp
    by_cases hce : (GG.planCommits r b tip).isEmpty
    · rw [if_pos hce] at hp; exact absurd hp (by simp)
    · rw [if_neg hce] at hp
      have hpe : (⟨b, GG.planCommits r b tip, d⟩ : GG.DivergencePlan) = p :=
        Except.ok.inj hp
      subst hpe
      refine ⟨rfl, ?_, ?_, ?_, ?_⟩
      · intro c hc
        rw [GG.planCommits, List.mem_reverse] at hc
        have := (List.takeWhile_sublist
          (fun c => !(GG.isAncestorOf r c b))).subset hc
        exact List.elem_iff.mpr this
      · intro c hc
        rw [GG.planCommits, List.mem_reverse] at hc
        have := List.mem_takeWhile_imp hc
        rwa [Bool.not_eq_true'] at this
      · intro c hfp hc
        rw [GG.planCommits, List.mem_reverse] at hc
        have hmem := (List.takeWhile_sublist
          (fun c => !(GG.isAncestorOf r c b))).subset hc
        have h2 : GG.fpReachable r tip c = true := List.elem_iff.mpr hmem
        rw [hfp] at h2
        exact Bool.false_ne_true h2
      · rw [GG.planCommits, List.getLast?_reverse]
        rw [GG.planCommits] at hce
        rcases GG.fpChainF_head r r.length tip with ⟨xs, hxs⟩
        rw [hxs] at hce ⊢
        rw [List.takeWhile_cons] at hce ⊢
        by_cases hpred : (!(GG.isAncestorOf r tip b)) = true
        · rw [if_pos hpred]
          rfl
        · rw [if_neg hpred] at hce
          exact absurd rfl hce

/-- Witness for C3 on the merge topology `repoMerge`: the sibling commit 1
is reachable from tip 3 (second parent of the merge) yet is not replayed;
the planned commits are `[2, 3]` ending at the tip. -/
theorem plan_commits_first_parent_only_witness :
    GG.isAncestorOf GG.repoMerge 1 3 = true ∧
    GG.fpReachable GG.repoMerge 3 1 = false ∧
    1 ∉ (⟨0, [2, 3], 0⟩ : GG.DivergencePlan).commits ∧
    (⟨0, [2, 3], 0⟩ : GG.DivergencePlan).commits.getLast? = some 3 := by
  have H := plan_commits_first_parent_only GG.repoMerge 3 0 (some 0) none
    ⟨0, [2, 3], 0⟩ (by rfl)
  exact ⟨by rfl, by rfl, H.2.2.2.1 1 (by rfl), H.2.2.2.2⟩

/-- C5: on the `repoHE` scenario, `histedit` marking C1 (= 2) as `edit` and
C2 (= 3) as `pick` first pauses with the branch tip at the rewritten C1
(= 4, parent the base 0, message and content of C1) and C2 pending; after
editing `foo.txt` and resuming, the history is base 0 → C1' 5 → C2' 6,
where C1' carries the edited `foo.txt` content but neither `bar.txt`
(introduced only by C2's patch) nor the untracked file, and C2' keeps the
edited content plus `bar.txt`. -/
theorem histedit_edit_continue_scenario :
    GG.heStartState.2 = .ok (4, some ⟨4, [(GG.Action.pick, 3)], false⟩) ∧
    GG.parentsOf GG.repoHE1 4 = [0] ∧
    GG.lookupFile (GG.treeOf GG.repoHE1 4) "foo.txt" =
      some "This is the original data" ∧
    (GG.fileNames (GG.treeOf GG.repoHE1 4)).contains "bar.txt" = false ∧
    GG.heContState.2 = .ok (6, none) ∧
    GG.parentsOf GG.repoHE2 6 = [5] ∧
    GG.parentsOf GG.repoHE2 5 = [0] ∧
    GG.lookupFile (GG.treeOf GG.repoHE2 5) "foo.txt" =
      some "This is edited history" ∧
    (GG.fileNames (GG.treeOf GG.repoHE2 5)).contains "bar.txt" = false ∧
    (GG.fileNames (GG.treeOf GG.repoHE2 5)).contains "untracked.txt" = false ∧
    GG.lookupFile (GG.treeOf GG.repoHE2 6) "foo.txt" =
      some "This is edited history" ∧
    (GG.fileNames (GG.treeOf GG.repoHE2 6)).contains "bar.txt" = true ∧
    GG.lookupC GG.repoHE2 3 = GG.lookupC GG.repoHE 3 :=
  ⟨rfl, rfl, rfl, rfl, rfl, rfl, rfl, rfl, rfl, rfl, rfl, rfl, rfl⟩

/-- C7: `-continue` and `-abort` with no persisted session fail with the
session-state error and mutate no state, for every working-copy content. -/
theorem continue_without_session_fails (hook : String → String) (r : GG.Repo)
    (writes : GG.Tree) (orig : Nat) :
    GG.continueCmd hook r none writes = (r, .error .noSessionInProgress) ∧
    GG.abortCmd r none orig = (r, .error .noSessionInProgress) :=
  ⟨rfl, rfl⟩

/-- Helper: every id the store knows is below the fresh id. -/
theorem GG.lookupC_lt_freshId {r : GG.Repo} {i : Nat} {d : GG.CommitData}
    (h : GG.lookupC r i = some d) : i < GG.freshId r := by
  induction r with
  | nil => simp [GG.lookupC] at h
  | cons a rest ih =>
    rw [show (a :: rest : GG.Repo) = (a.1, a.2) :: rest from rfl] at h
    simp only [GG.lookupC] at h
    simp only [GG.freshId, List.foldr_cons]
    by_cases he : a.1 = i
    · exact Nat.lt_succ_of_le (he ▸ Nat.le_max_left a.1 _)
    · rw [if_neg he] at h
      have h2 := ih h
      rw [GG.freshId] at h2
      exact Nat.lt_succ_of_le
        (le_trans (Nat.lt_succ_iff.mp h2) (Nat.le_max_right a.1 _))

/-- Helper: recording a commit under a different id preserves lookups. -/
theorem GG.lookupC_insertC_ne (r : GG.Repo) {i c : Nat} (d : GG.CommitData)
    (h : i ≠ c) : GG.lookupC (GG.insertC r i d) c = GG.lookupC r c := by
  simp only [GG.insertC, GG.lookupC, if_neg h]

/-- Helper: executing a plan only adds fresh commits — an existing commit
object is never rewritten in place. -/
theorem GG.execPlan_lookup_preserved (acts : List (GG.Action × Nat))
    (hook : String → String) (r : GG.Repo) (h c : Nat) (d : GG.CommitData)
    (hld : GG.lookupC r c = some d) :
    GG.lookupC (GG.execPlan hook r h acts).1 c = some d := by
  induction acts generalizing r h with
  | nil => exact hld
  | cons ac rest ih =>
    rcases ac with ⟨a, c0⟩
    simp only [GG.execPlan]
    cases hg : GG.lookupC r c0 with
    | none => exact ih r h hld
    | some d0 =>
      have hne : GG.freshId r ≠ c :=
        fun he => absurd (GG.lookupC_lt_freshId hld) (by rw [← he]; exact lt_irrefl _)
      cases a with
      | pick =>
        exact ih _ _ (by rw [GG.lookupC_insertC_ne _ _ hne]; exact hld)
      | reword =>
        exact ih _ _ (by rw [GG.lookupC_insertC_ne _ _ hne]; exact hld)
      | edit =>
        rw [GG.lookupC_insertC_ne _ _ hne]
        exact hld

/-- Helper: when no pending step is a `reword`, plan execution never
consults the message-edit hook. -/
theorem GG.execPlan_hook_irrel (acts : List (GG.Action × Nat))
    (hook hook2 : String → String) (r : GG.Repo) (h : Nat)
    (hno : ∀ a c, (a, c) ∈ acts → a ≠ GG.Action.reword) :
    GG.execPlan hook r h acts = GG.execPlan hook2 r h acts := by
  induction acts generalizing r h with
  | nil => rfl
  | cons ac rest ih =>
    rcases ac with ⟨a, c0⟩
    simp only [GG.execPlan]
    have hno' : ∀ a c, (a, c) ∈ rest → a ≠ GG.Action.reword :=
      fun a c hm => hno a c (List.mem_cons_of_mem _ hm)
    cases hg : GG.lookupC r c0 with
    | none => exact ih r h hno'
    | some d0 =>
      cases ha : a with
      | pick => exact ih _ _ hno'
      | reword => exact absurd rfl (ha ▸ hno a c0 (List.mem_cons_self _ _))
      | edit => rfl

/-- C6: resuming a paused `edit` session when nothing relevant changed in
the working copy is idempotent — the continuation is exactly the execution
of the pending tail (the already-applied head step is not re-applied), the
head commit's stored object (hash, patch, message) is byte-identical
afterwards, and with no step awaiting a message the message-edit hook is
never consulted (any two hooks give identical results). -/
theorem continue_session_idempotent (hook hook2 : String → String)
    (r : GG.Repo) (s : GG.Session) (writes : GG.Tree) (dh : GG.CommitData)
    (haw : s.awaitingMessage = false)
    (hmods : writes.filter
      (fun nv => (GG.fileNames (GG.treeOf r s.head)).contains nv.1) = [])
    (hhead : GG.lookupC r s.head = some dh)
    (hpick : ∀ a c, (a, c) ∈ s.pending → a ≠ GG.Action.reword) :
    GG.continueSession hook r s writes = GG.execPlan hook r s.head s.pending ∧
    GG.lookupC (GG.continueSession hook r s writes).1 s.head = some dh ∧
    GG.continueSession hook r s writes = GG.continueSession hook2 r s writes := by
  have hstep : GG.continueSession hook r s writes =
      GG.execPlan hook r s.head s.pending := by
    simp only [GG.continueSession]
    rw [hmods, haw]
    rfl
  have hstep2 : GG.continueSession hook2 r s writes =
      GG.execPlan hook2 r s.head s.pending := by
    simp only [GG.continueSession]
    rw [hmods, haw]
    rfl
  refine ⟨hstep, ?_, ?_⟩
  · rw [hstep]
    exact GG.execPlan_lookup_preserved s.pending hook r s.head s.head dh hhead
  · rw [hstep, hstep2]
    exact GG.execPlan_hook_irrel s.pending hook hook2 r s.head hpick

/-- Witness for C6 on the paused `repoHE1` session with no working-copy
changes: two different hooks agree and commit 4 is untouched. -/
theorem continue_session_idempotent_witness :
    GG.continueSession id GG.repoHE1 ⟨4, [(GG.Action.pick, 3)], false⟩ [] =
      GG.execPlan id GG.repoHE1 4 [(GG.Action.pick, 3)] ∧
    GG.lookupC
      (GG.continueSession id GG.repoHE1 ⟨4, [(GG.Action.pick, 3)], false⟩ []).1 4 =
      some ⟨[0], [("foo.txt", "This is the original data")], "Divergence 1"⟩ ∧
    GG.continueSession id GG.repoHE1 ⟨4, [(GG.Action.pick, 3)], false⟩ [] =
      GG.continueSession (fun m => m ++ "!") GG.repoHE1
        ⟨4, [(GG.Action.pick, 3)], false⟩ [] :=
  continue_session_idempotent id (fun m => m ++ "!") GG.repoHE1
    ⟨4, [(GG.Action.pick, 3)], false⟩ []
    ⟨[0], [("foo.txt", "This is the original data")], "Divergence 1"⟩
    rfl rfl rfl
    (by
      intro a c hm
      have h1 := List.mem_singleton.mp hm
      rw [Prod.mk.injEq] at h1
      rw [h1.1]
      exact fun hcon => GG.Action.noConfusion hcon)
